import Mathlib

/-!
Shallow embedding of the per-band radiometric enhancement core of
src/SpectralEnhancementAlgorithm.py (method processAlgorithm of class
SpectralRasterEnhancementAlgorithm) together with theorems checking the
frozen claims about it.

Modelling conventions:
  * numpy float64 values are modelled as exact rationals; every float
    operation appearing in the source (subtraction, multiplication, true
    division, comparison) is modelled by the corresponding exact rational
    operation.
  * the float 0/0 that the source produces on a degenerate band under
    Linear Stretch yields NaN, whose uint8 cast is undefined behaviour; a
    pixel whose value is undefined in this sense is modelled as none.
  * astype(np.uint8) truncates toward zero and wraps modulo 256 (the
    observed int64 conversion path), modelled by toU8.
  * np.power is an external numeric routine whose exponent is 1.0/gamma in
    the source; it is modelled by an explicit function parameter pw, with
    the algebraic facts needed about it (such as pw x 1 = x) taken as
    hypotheses where a claim depends on them.
-/

set_option maxRecDepth 100000

namespace HistEnh

/-- Minimum of a list with a default for the empty list; on a nonempty list
this is exactly numpy min over the array. -/
def listMinD {α : Type} [LinearOrder α] (l : List α) (d : α) : α :=
  match l with
  | [] => d
  | h :: t => t.foldl min h

/-- Maximum of a list with a default for the empty list; on a nonempty list
this is exactly numpy max over the array. -/
def listMaxD {α : Type} [LinearOrder α] (l : List α) (d : α) : α :=
  match l with
  | [] => d
  | h :: t => t.foldl max h

theorem foldl_min_le_init {α : Type} [LinearOrder α] :
    ∀ (t : List α) (a : α), t.foldl min a ≤ a := by
  intro t
  induction t with
  | nil => intro a; exact le_refl a
  | cons h t ih =>
    intro a
    calc (h :: t).foldl min a = t.foldl min (min a h) := rfl
    _ ≤ min a h := ih (min a h)
    _ ≤ a := min_le_left a h

theorem foldl_min_le_mem {α : Type} [LinearOrder α] :
    ∀ (t : List α) (a x : α), x ∈ t → t.foldl min a ≤ x := by
  intro t
  induction t with
  | nil => intro a x hx; cases hx
  | cons h t ih =>
    intro a x hx
    rcases List.mem_cons.mp hx with h1 | h2
    · subst h1
      calc (x :: t).foldl min a = t.foldl min (min a x) := rfl
      _ ≤ min a x := foldl_min_le_init t (min a x)
      _ ≤ x := min_le_right a x
    · exact ih (min a h) x h2

theorem foldl_min_mem {α : Type} [LinearOrder α] :
    ∀ (t : List α) (a : α), t.foldl min a = a ∨ t.foldl min a ∈ t := by
  intro t
  induction t with
  | nil => intro a; exact Or.inl rfl
  | cons h t ih =>
    intro a
    have hfold : (h :: t).foldl min a = t.foldl min (min a h) := rfl
    rcases ih (min a h) with h1 | h2
    · rcases min_cases a h with ⟨hm, _⟩ | ⟨hm, _⟩
      · exact Or.inl (by rw [hfold, h1, hm])
      · exact Or.inr (by rw [hfold]; exact List.mem_cons.mpr (Or.inl (h1.trans hm)))
    · exact Or.inr (by rw [hfold]; exact List.mem_cons.mpr (Or.inr h2))

theorem listMinD_le_mem {α : Type} [LinearOrder α] (l : List α) (d x : α)
    (hx : x ∈ l) : listMinD l d ≤ x := by
  cases l with
  | nil => cases hx
  | cons h t =>
    rcases List.mem_cons.mp hx with h1 | h2
    · subst h1; exact foldl_min_le_init t x
    · exact foldl_min_le_mem t h x h2

theorem listMinD_mem {α : Type} [LinearOrder α] (l : List α) (d : α)
    (hl : l ≠ []) : listMinD l d ∈ l := by
  cases l with
  | nil => exact absurd rfl hl
  | cons h t =>
    rcases foldl_min_mem t h with h1 | h2
    · exact List.mem_cons.mpr (Or.inl (by simpa [listMinD] using h1))
    · exact List.mem_cons.mpr (Or.inr (by simpa [listMinD] using h2))

theorem foldl_max_init_le {α : Type} [LinearOrder α] :
    ∀ (t : List α) (a : α), a ≤ t.foldl max a := by
  intro t
  induction t with
  | nil => intro a; exact le_refl a
  | cons h t ih =>
    intro a
    calc a ≤ max a h := le_max_left a h
    _ ≤ t.foldl max (max a h) := ih (max a h)
    _ = (h :: t).foldl max a := rfl

theorem foldl_max_mem_le {α : Type} [LinearOrder α] :
    ∀ (t : List α) (a x : α), x ∈ t → x ≤ t.foldl max a := by
  intro t
  induction t with
  | nil => intro a x hx; cases hx
  | cons h t ih =>
    intro a x hx
    rcases List.mem_cons.mp hx with h1 | h2
    · subst h1
      calc x ≤ max a x := le_max_right a x
      _ ≤ t.foldl max (max a x) := foldl_max_init_le t (max a x)
      _ = (x :: t).foldl max a := rfl
    · exact ih (max a h) x h2

theorem foldl_max_mem {α : Type} [LinearOrder α] :
    ∀ (t : List α) (a : α), t.foldl max a = a ∨ t.foldl max a ∈ t := by
  intro t
  induction t with
  | nil => intro a; exact Or.inl rfl
  | cons h t ih =>
    intro a
    have hfold : (h :: t).foldl max a = t.foldl max (max a h) := rfl
    rcases ih (max a h) with h1 | h2
    · rcases max_cases a h with ⟨hm, _⟩ | ⟨hm, _⟩
      · exact Or.inl (by rw [hfold, h1, hm])
      · exact Or.inr (by rw [hfold]; exact List.mem_cons.mpr (Or.inl (h1.trans hm)))
    · exact Or.inr (by rw [hfold]; exact List.mem_cons.mpr (Or.inr h2))

theorem listMaxD_mem_le {α : Type} [LinearOrder α] (l : List α) (d x : α)
    (hx : x ∈ l) : x ≤ listMaxD l d := by
  cases l with
  | nil => cases hx
  | cons h t =>
    rcases List.mem_cons.mp hx with h1 | h2
    · subst h1; exact foldl_max_init_le t x
    · exact foldl_max_mem_le t h x h2

theorem listMaxD_mem {α : Type} [LinearOrder α] (l : List α) (d : α)
    (hl : l ≠ []) : listMaxD l d ∈ l := by
  cases l with
  | nil => exact absurd rfl hl
  | cons h t =>
    rcases foldl_max_mem t h with h1 | h2
    · exact List.mem_cons.mpr (Or.inl (by simpa [listMaxD] using h1))
    · exact List.mem_cons.mpr (Or.inr (by simpa [listMaxD] using h2))

theorem listMinD_le_listMaxD {α : Type} [LinearOrder α] (l : List α) (d : α)
    (hl : l ≠ []) : listMinD l d ≤ listMaxD l d :=
  le_trans (listMinD_le_mem l d _ (listMaxD_mem l d hl)) (le_refl _)

/-- Conversion of a float value to uint8 as performed by astype(np.uint8):
truncation toward zero, wrapping modulo 256. -/
def toU8 (q : ℚ) : ℕ := ((if q < 0 then ⌈q⌉ else ⌊q⌋) % 256).toNat

/-- np.percentile with the default linear interpolation method: with the
data sorted ascending, the value at fractional rank q/100*(n-1). -/
def percentile (V : List ℚ) (q : ℚ) : ℚ :=
  let s := V.insertionSort (· ≤ ·)
  let pos := q / 100 * ((V.length : ℚ) - 1)
  let i := (⌊pos⌋).toNat
  s.getD i 0 + (pos - ⌊pos⌋) * (s.getD (i + 1) 0 - s.getD i 0)

/-- The Linear Stretch branch of processAlgorithm applied to the list of
valid (non-nodata) samples, lines 161 to 168 of the source: percentiles at
cut and 100-cut, clip, affine map to 0..255, uint8 truncation. A pixel
result of none models the float NaN from the 0/0 division in the
degenerate case p_max = p_min, whose uint8 cast is undefined. -/
def linearStretchValid (c : ℚ) (V : List ℚ) : List (Option ℕ) :=
  let pmin := percentile V c
  let pmax := percentile V (100 - c)
  if pmax - pmin = 0 then V.map (fun _ => none)
  else V.map (fun x => some (toU8 ((min (max x pmin) pmax - pmin) / (pmax - pmin) * 255)))

/-- Modelled from the spec: the Linear Stretch formula as the spec words it,
out equals round of (clip(x,low,high) - low) / (high - low) * 255, used to
compare the spec wording against the source behaviour. -/
def linearStretchSpecRound (c : ℚ) (V : List ℚ) : List ℤ :=
  let pmin := percentile V c
  let pmax := percentile V (100 - c)
  V.map (fun x => round ((min (max x pmin) pmax - pmin) / (pmax - pmin) * 255))

/-- Lower edge of the histogram range used by np.histogram for the
Equalization branch: the minimum of the valid data, expanded by one half
when the data is constant, exactly as numpy expands a degenerate range. -/
def eqLo (V : List ℚ) : ℚ :=
  if listMinD V 0 = listMaxD V 0 then listMinD V 0 - 1/2 else listMinD V 0

/-- Upper edge of the histogram range used by np.histogram for the
Equalization branch, with the same degenerate-range expansion as numpy. -/
def eqHi (V : List ℚ) : ℚ :=
  if listMinD V 0 = listMaxD V 0 then listMaxD V 0 + 1/2 else listMaxD V 0

/-- Index of the uniform histogram bin receiving a sample x, for 256 bins
over the range lo..hi: truncation of (x - lo) * 256 / (hi - lo), with the
top edge assigned to the last bin, as numpy does. -/
def binIdx (lo hi x : ℚ) : ℕ :=
  min (Int.toNat ⌊(x - lo) * 256 / (hi - lo)⌋) 255

/-- The 256-bin histogram of np.histogram over the range lo..hi. The
irreducible marking only stops the elaborator from unfolding the 256-bin
spine eagerly; the kernel and evaluation are unaffected. -/
@[irreducible] def histogram (lo hi : ℚ) (V : List ℚ) : List ℕ :=
  (List.range 256).map (fun k => (V.filter (fun x => decide (binIdx lo hi x = k))).length)

/-- Running cumulative sums with accumulator, modelling np.cumsum. -/
def cumsumGo (acc : ℕ) : List ℕ → List ℕ
  | [] => []
  | h :: t => (acc + h) :: cumsumGo (acc + h) t

/-- np.cumsum of the histogram, giving the cumulative distribution. -/
def cumsum (l : List ℕ) : List ℕ := cumsumGo 0 l

/-- The rescaling of the cdf performed by the Equalization branch, lines
174 to 181 of the source: (cdf - cdf_min) * 255 / (cdf_max - cdf_min) when
cdf_max exceeds cdf_min, an all-zero array otherwise. -/
def scaleCdf (cdf : List ℕ) : List ℚ :=
  let m := listMinD cdf 0
  let M := listMaxD cdf 0
  if M > m then cdf.map (fun (v : ℕ) => ((v : ℚ) - (m : ℚ)) * 255 / ((M : ℚ) - (m : ℚ)))
  else cdf.map (fun (_ : ℕ) => (0 : ℚ))

/-- Center of bin k, the average of the two adjacent bin edges
lo + k * w and lo + (k+1) * w of the np.histogram edge array. -/
def binCenter (lo w : ℚ) (k : ℕ) : ℚ :=
  ((lo + (k : ℚ) * w) + (lo + ((k : ℚ) + 1) * w)) / 2

/-- The bins_center array of the source, line 183: midpoints of the 256
consecutive pairs of histogram bin edges. -/
def binsCenter (lo w : ℚ) : List ℚ :=
  (List.range 256).map (binCenter lo w)

/-- np.interp over a list of sample points: constant extrapolation at the
two ends and piecewise-linear interpolation inside, assuming the first
coordinates are strictly increasing. -/
def interpPts (x : ℚ) : List (ℚ × ℚ) → ℚ
  | [] => 0
  | [p] => p.2
  | p :: q :: rest =>
    if x ≤ p.1 then p.2
    else if x ≤ q.1 then p.2 + (q.2 - p.2) * (x - p.1) / (q.1 - p.1)
    else interpPts x (q :: rest)

/-- The scaled uint8 cdf array of the Equalization branch as rational
values, ready for np.interp. -/
def cdfLookup (V : List ℚ) : List ℚ :=
  (scaleCdf (cumsum (histogram (eqLo V) (eqHi V) V))).map (fun q => (toU8 q : ℚ))

/-- The value the Equalization branch of processAlgorithm, lines 170 to
185 of the source, assigns to one valid sample x of the band whose valid
data is V: np.interp of x against bin centers and scaled uint8 cdf,
truncated to uint8. -/
def equalizeVal (V : List ℚ) (x : ℚ) : ℕ :=
  let lo := eqLo V
  let hi := eqHi V
  let w := (hi - lo) / 256
  toU8 (interpPts x ((binsCenter lo w).zip (cdfLookup V)))

/-- The Equalization branch applied to the whole valid sample list. -/
def equalizeValid (V : List ℚ) : List ℕ := V.map (equalizeVal V)

/-- The Gamma Correction branch of processAlgorithm, lines 187 to 198 of
the source, on the valid sample list: min-max normalisation (all zero when
the range is zero), external power function pw at exponent 1/gamma, scale
by 255 and uint8 truncation. The result is none when gamma = 0, modelling
the ZeroDivisionError that the Python expression 1.0/gamma raises. -/
def gammaValid (pw : ℚ → ℚ → ℚ) (g : ℚ) (V : List ℚ) : Option (List ℕ) :=
  if g = 0 then none
  else
    let mn := listMinD V 0
    let mx := listMaxD V 0
    let r := mx - mn
    let norm := if r = 0 then V.map (fun _ => (0 : ℚ)) else V.map (fun x => (x - mn) / r)
    some (norm.map (fun y => toU8 (pw y (1 / g) * 255)))

/-- Modelled from the spec: plain min-max normalisation scaled to 0..255,
the comparison point named by the claim about gamma = 1. -/
def minMaxScale (V : List ℚ) : List ℕ :=
  V.map (fun x => toU8 ((x - listMinD V 0) / (listMaxD V 0 - listMinD V 0) * 255))

/-- One band of the input raster: the flattened float64 pixel array and
the optional nodata sentinel reported by GetNoDataValue. -/
structure BandData where
  data : List ℚ
  nodata : Option ℚ
  deriving DecidableEq

/-- The nodata mask of a band, line 147 to 151 of the source: data equal
to the nodata value, or all false when no nodata value is set. -/
def maskOf (b : BandData) : List Bool :=
  match b.nodata with
  | some nd => b.data.map (fun x => decide (x = nd))
  | none => b.data.map (fun _ => false)

/-- The valid sample list of a band, line 153 of the source: the pixels at
the positions where the mask is false, in array order. -/
def validOf (b : BandData) : List ℚ :=
  match b.nodata with
  | some nd => b.data.filter (fun x => !(decide (x = nd)))
  | none => b.data

/-- Writing the per-valid-pixel results back into the zero-initialised
output buffer: masked positions receive 0 (line 200 of the source) and
unmasked positions consume the transformed valid values in order. -/
def scatter : List Bool → List (Option ℕ) → List (Option ℕ)
  | [], _ => []
  | true :: ms, vs => some 0 :: scatter ms vs
  | false :: _, [] => []
  | false :: ms, v :: vs => v :: scatter ms vs

/-- Outcome of processing one band inside the loop of processAlgorithm:
skipped with a warning when there is no valid sample, written with the
final uint8 buffer otherwise, or raised when the band computation throws
(only the ZeroDivisionError from 1.0/gamma in the Gamma branch can). -/
inductive BandStep where
  | skipped : BandStep
  | written : List (Option ℕ) → BandStep
  | raised : BandStep
  deriving DecidableEq

/-- The method dispatch of the band loop, lines 161 to 198 of the source:
the branch chain comparing method_index with 0, 1 and 2 applied to the
valid sample list; any other index leaves the zero-initialised buffer
untouched, so every valid position stays 0. The result is none exactly
when the selected branch raises. -/
def methodOutputs (pw : ℚ → ℚ → ℚ) (m : ℤ) (c g : ℚ) (V : List ℚ) :
    Option (List (Option ℕ)) :=
  if m = 0 then some (linearStretchValid c V)
  else if m = 1 then some ((equalizeValid V).map some)
  else if m = 2 then (gammaValid pw g V).map (fun l => l.map some)
  else some (V.map (fun _ => some 0))

/-- The body of the band loop of processAlgorithm, lines 144 to 207 of the
source, for one band: mask, valid data, empty-band skip, the method
dispatch, masked positions forced to 0. -/
def processBand (pw : ℚ → ℚ → ℚ) (m : ℤ) (c g : ℚ) (b : BandData) : BandStep :=
  if (validOf b).isEmpty then .skipped
  else
    match methodOutputs pw m c g (validOf b) with
    | none => .raised
    | some vals => .written (scatter (maskOf b) vals)

/-- The input dataset as seen by processAlgorithm: dimensions, geotransform,
projection and the per-band data. -/
structure InputDS where
  cols : ℕ
  rows : ℕ
  geotransform : List ℚ
  projection : String
  bands : List BandData

/-- Observable events of one run of processAlgorithm, in the order they
happen: the cancellation check and the read at the top of each band
iteration, the empty-band warning, the band write, output creation, the
closing of both datasets, the completion message and the catch-all error
report. -/
inductive Ev where
  | checkCancel : ℕ → Ev
  | readBand : ℕ → Ev
  | warnEmpty : ℕ → Ev
  | writeBand : ℕ → Ev
  | createOutput : Ev
  | closeDatasets : Ev
  | complete : Ev
  | errorCaught : Ev
  deriving DecidableEq

/-- The zero-initialised content a GTiff Create gives every output band. -/
def zerosBand (sz : ℕ) : List (Option ℕ) := List.replicate sz (some 0)

/-- The events one band iteration emits. -/
def bandEvs (pw : ℚ → ℚ → ℚ) (m : ℤ) (c g : ℚ) (i : ℕ) (b : BandData) : List Ev :=
  match processBand pw m c g b with
  | .skipped => [.checkCancel i, .readBand i, .warnEmpty i]
  | .written _ => [.checkCancel i, .readBand i, .writeBand i]
  | .raised => [.checkCancel i, .readBand i]

/-- The final content of one output band slot together with the flag
recording whether SetNoDataValue(0) was called on it. -/
def bandOut (pw : ℚ → ℚ → ℚ) (m : ℤ) (c g : ℚ) (sz : ℕ) (b : BandData) :
    List (Option ℕ) × Bool :=
  match processBand pw m c g b with
  | .written out => (out, true)
  | _ => (zerosBand sz, false)

/-- The concatenated events of the band iterations starting at index i. -/
def loopEvs (pw : ℚ → ℚ → ℚ) (m : ℤ) (c g : ℚ) : ℕ → List BandData → List Ev
  | _, [] => []
  | i, b :: bs => bandEvs pw m c g i b ++ loopEvs pw m c g (i + 1) bs

/-- The band loop of processAlgorithm, lines 138 to 207 of the source,
starting at loop index i: checks the cancellation flag first, breaks when
it is set, otherwise reads and processes the band, skipping empty bands
and stopping with an uncaught exception when a branch raises. Returns the
emitted events, the final per-slot output contents with their nodata
flags, and whether the loop ended without an exception. -/
def runLoop (pw : ℚ → ℚ → ℚ) (m : ℤ) (c g : ℚ) (cancel : ℕ → Bool) (sz : ℕ) :
    ℕ → List BandData → List Ev × List (List (Option ℕ) × Bool) × Bool
  | _, [] => ([], [], true)
  | i, b :: rest =>
    if cancel i then
      ([.checkCancel i], (b :: rest).map (fun _ => (zerosBand sz, false)), true)
    else
      match processBand pw m c g b with
      | .raised =>
        ([.checkCancel i, .readBand i],
          (b :: rest).map (fun _ => (zerosBand sz, false)), false)
      | .skipped =>
        let r := runLoop pw m c g cancel sz (i + 1) rest
        ([.checkCancel i, .readBand i, .warnEmpty i] ++ r.1,
          (zerosBand sz, false) :: r.2.1, r.2.2)
      | .written out =>
        let r := runLoop pw m c g cancel sz (i + 1) rest
        ([.checkCancel i, .readBand i, .writeBand i] ++ r.1,
          (out, true) :: r.2.1, r.2.2)

/-- The observable outcome of one call of processAlgorithm. -/
structure RunOut where
  trace : List Ev
  outBands : List (List (Option ℕ))
  nodataSet : List Bool
  geotransform : List ℚ
  projection : String
  outputCreated : Bool
  result : Option String

/-- processAlgorithm, lines 109 to 220 of the source: open, the zero-band
check, the progress message whose list indexing self.methods[method_index]
raises IndexError unless -3 <= method_index < 3, output creation copying
geotransform and projection, the band loop, the closing of both datasets
on normal exit, and the catch-all except clause that reports the error and
returns an empty result. -/
def run (pw : ℚ → ℚ → ℚ) (m : ℤ) (c g : ℚ) (cancel : ℕ → Bool) (ds : InputDS)
    (outPath : String) : RunOut :=
  if ds.bands.length = 0 then
    { trace := [.errorCaught], outBands := [], nodataSet := [], geotransform := [],
      projection := "", outputCreated := false, result := none }
  else if ¬ (-3 ≤ m ∧ m < 3) then
    { trace := [.errorCaught], outBands := [], nodataSet := [], geotransform := [],
      projection := "", outputCreated := false, result := none }
  else
    let sz := ds.cols * ds.rows
    let r := runLoop pw m c g cancel sz 1 ds.bands
    { trace := [.createOutput] ++ r.1 ++
        (if r.2.2 then [.closeDatasets, .complete] else [.errorCaught])
      outBands := r.2.1.map Prod.fst
      nodataSet := r.2.1.map Prod.snd
      geotransform := ds.geotransform
      projection := ds.projection
      outputCreated := true
      result := if r.2.2 then some outPath else none }

/-! Facts about percentile at the extreme ranks 0 and 100. -/

theorem insertionSort_getD_zero (V : List ℚ) (h : V ≠ []) :
    (V.insertionSort (· ≤ ·)).getD 0 0 = listMinD V 0 := by
  have hperm := List.perm_insertionSort (· ≤ ·) V
  have hsort := List.sorted_insertionSort (· ≤ ·) V
  cases hs : V.insertionSort (· ≤ ·) with
  | nil =>
    exfalso
    rw [hs] at hperm
    exact h hperm.nil_eq.symm
  | cons a t =>
    rw [hs] at hperm hsort
    simp only [List.getD_cons_zero]
    apply le_antisymm
    · have hmem : listMinD V 0 ∈ a :: t := hperm.mem_iff.mpr (listMinD_mem V 0 h)
      rcases List.mem_cons.mp hmem with h1 | h2
      · exact le_of_eq h1.symm
      · exact List.rel_of_sorted_cons hsort _ h2
    · exact listMinD_le_mem V 0 a (hperm.mem_iff.mp (List.mem_cons_self a t))

theorem insertionSort_getD_last (V : List ℚ) (h : V ≠ []) :
    (V.insertionSort (· ≤ ·)).getD (V.length - 1) 0 = listMaxD V 0 := by
  have hperm := List.perm_insertionSort (· ≤ ·) V
  have hsort := List.sorted_insertionSort (· ≤ ·) V
  have hlen : (V.insertionSort (· ≤ ·)).length = V.length := hperm.length_eq
  have hpos : 0 < V.length := List.length_pos.mpr h
  have hlt : V.length - 1 < (V.insertionSort (· ≤ ·)).length := by omega
  rw [List.getD_eq_getElem _ _ hlt]
  apply le_antisymm
  · exact listMaxD_mem_le V 0 _ (hperm.mem_iff.mp (List.getElem_mem hlt))
  · have hmax : listMaxD V 0 ∈ V.insertionSort (· ≤ ·) :=
      hperm.mem_iff.mpr (listMaxD_mem V 0 h)
    obtain ⟨i, hi, hEq⟩ := List.getElem_of_mem hmax
    rw [← hEq]
    rcases lt_or_eq_of_le (show i ≤ V.length - 1 by omega) with hlt2 | heq2
    · have hrel := List.Sorted.rel_get_of_lt hsort
        (show (⟨i, hi⟩ : Fin _) < ⟨V.length - 1, hlt⟩ from hlt2)
      simpa [List.get_eq_getElem] using hrel
    · subst heq2
      exact le_refl _

theorem percentile_zero (V : List ℚ) (h : V ≠ []) : percentile V 0 = listMinD V 0 := by
  unfold percentile
  simp only [zero_div, zero_mul, Int.floor_zero, Int.toNat_zero, Int.cast_zero, sub_zero,
    sub_self, zero_mul, add_zero]
  exact insertionSort_getD_zero V h

theorem percentile_hundred (V : List ℚ) (h : V ≠ []) : percentile V 100 = listMaxD V 0 := by
  unfold percentile
  have hn : 1 ≤ V.length := List.length_pos.mpr h
  have hpos : (100 : ℚ) / 100 * ((V.length : ℚ) - 1) = ((V.length - 1 : ℕ) : ℚ) := by
    rw [Nat.cast_sub hn, Nat.cast_one]; norm_num
  simp only [hpos, Int.floor_natCast, Int.toNat_natCast, Int.cast_natCast, sub_self, zero_mul,
    add_zero]
  exact insertionSort_getD_last V h

/-- A concrete one-band input dataset used by several closed evaluations. -/
def dsEx1 : InputDS := ⟨2, 1, [0, 1, 0, 0, 0, 1], "EPSG:4326", [⟨[0, 1], none⟩]⟩

/-- Claim C1: the claim states that on a band whose valid pixels are all
equal, each of the three methods avoids division by zero and writes the
defined constant 0. On the band with both pixels equal to 5 the source
Linear Stretch has p_max equal to p_min, so it divides zero by zero and
writes the undefined uint8 cast of NaN, and the source Equalization maps
both pixels to 127, not 0; only Gamma Correction writes 0. -/
theorem C1_constant_band_code_bug :
    percentile [5, 5] (100 - 0) - percentile [5, 5] 0 = 0
    ∧ linearStretchValid 0 [5, 5] = [none, none]
    ∧ equalizeValid [5, 5] = [127, 127]
    ∧ gammaValid (fun x _ => x) 1 [5, 5] = some [0, 0] := by
  with_unfolding_all decide

/-- Claim C2, counterexample: on the band 0, 1, 2 with cutPercent 0 the
source writes 127 for the middle pixel because astype(np.uint8) truncates
127.5, while the formula of the claim, with round, gives 128. -/
theorem C2_round_counterexample :
    linearStretchValid 0 [0, 1, 2] = [some 0, some 127, some 255]
    ∧ linearStretchSpecRound 0 [0, 1, 2] = [0, 128, 255]
    ∧ linearStretchValid 0 [0, 1, 2]
      ≠ (linearStretchSpecRound 0 [0, 1, 2]).map (fun z => some z.toNat) := by
  with_unfolding_all decide

/-- Claim C2, amended: for a band whose percentile range is nondegenerate,
Linear Stretch maps each valid sample x to the truncation (not rounding)
of (clip(x, low, high) - low) / (high - low) * 255, with low and high the
percentiles at cutPercent and 100 - cutPercent; at cutPercent 0 these
percentiles are exactly the minimum and maximum of the valid data, so the
output is the truncated linear rescale of the range min..max to 0..255. -/
theorem C2_linear_stretch_trunc (V : List ℚ) (c : ℚ) (hne : V ≠ [])
    (hlh : percentile V c < percentile V (100 - c)) :
    linearStretchValid c V = V.map (fun x => some (toU8
      ((min (max x (percentile V c)) (percentile V (100 - c)) - percentile V c)
        / (percentile V (100 - c) - percentile V c) * 255)))
    ∧ percentile V 0 = listMinD V 0 ∧ percentile V 100 = listMaxD V 0 := by
  refine ⟨?_, percentile_zero V hne, percentile_hundred V hne⟩
  unfold linearStretchValid
  rw [if_neg (sub_ne_zero.mpr (ne_of_gt hlh))]

/-- Witness for the amended claim C2 at the band 0, 1, 2 with cutPercent 0. -/
theorem C2_linear_stretch_trunc_witness :
    (([0, 1, 2] : List ℚ) ≠ [] ∧ percentile [0, 1, 2] 0 < percentile [0, 1, 2] (100 - 0))
    ∧ (linearStretchValid 0 [0, 1, 2] = List.map (fun x => some (toU8
        ((min (max x (percentile [0, 1, 2] 0)) (percentile [0, 1, 2] (100 - 0))
            - percentile [0, 1, 2] 0)
          / (percentile [0, 1, 2] (100 - 0) - percentile [0, 1, 2] 0) * 255))) [0, 1, 2]
      ∧ percentile [0, 1, 2] 0 = listMinD [0, 1, 2] 0
      ∧ percentile [0, 1, 2] 100 = listMaxD [0, 1, 2] 0) :=
  ⟨⟨by with_unfolding_all decide, by with_unfolding_all decide⟩,
    C2_linear_stretch_trunc [0, 1, 2] 0 (by with_unfolding_all decide)
      (by with_unfolding_all decide)⟩

/-- Claim C3: the claim states that gamma not positive fails with a
validation error before any band is read or any output is created. The
source performs no gamma validation: with gamma 0 and the Gamma method the
run creates the output dataset, reads band 1, and only then the expression
1.0/gamma raises ZeroDivisionError, which the catch-all turns into an
error report and an empty result; with gamma -1 the run completes without
any error at all. -/
theorem C3_no_gamma_validation_code_bug :
    (run (fun _ _ => 0) 2 2 0 (fun _ => false) dsEx1 ("o")).outputCreated = true
    ∧ Ev.readBand 1 ∈ (run (fun _ _ => 0) 2 2 0 (fun _ => false) dsEx1 ("o")).trace
    ∧ (run (fun _ _ => 0) 2 2 0 (fun _ => false) dsEx1 ("o")).result = none
    ∧ Ev.errorCaught ∈ (run (fun _ _ => 0) 2 2 0 (fun _ => false) dsEx1 ("o")).trace
    ∧ (run (fun _ _ => 0) 2 2 (-1) (fun _ => false) dsEx1 ("o")).result = some ("o") := by
  with_unfolding_all decide

/-- Claim C6: with gamma equal to 1 the Gamma Correction branch computes
the power at exponent 1, which is the identity, so its output equals plain
min-max normalisation scaled to 0..255, for every band with non-zero
valid-value range. -/
theorem C6_gamma_one_is_minmax (pw : ℚ → ℚ → ℚ) (V : List ℚ)
    (hpw : ∀ x, pw x 1 = x) (hr : listMinD V 0 ≠ listMaxD V 0) :
    gammaValid pw 1 V = some (minMaxScale V) := by
  unfold gammaValid minMaxScale
  rw [if_neg one_ne_zero]
  have hr2 : listMaxD V 0 - listMinD V 0 ≠ 0 := sub_ne_zero.mpr (Ne.symm hr)
  simp only [if_neg hr2, List.map_map, one_div_one, Function.comp, hpw]
  rfl

/-- Witness for claim C6 at the band 0, 2 with the power function that is
the identity at exponent one. -/
theorem C6_gamma_one_is_minmax_witness :
    ((∀ x : ℚ, (fun (x : ℚ) (_ : ℚ) => x) x 1 = x)
      ∧ listMinD ([0, 2] : List ℚ) 0 ≠ listMaxD ([0, 2] : List ℚ) 0)
    ∧ gammaValid (fun x _ => x) 1 [0, 2] = some (minMaxScale [0, 2]) :=
  ⟨⟨fun _ => rfl, by with_unfolding_all decide⟩,
    C6_gamma_one_is_minmax (fun x _ => x) [0, 2] (fun _ => rfl)
      (by with_unfolding_all decide)⟩

/-- The loop of the source writes one output slot per input band. -/
theorem runLoop_outs_length (pw : ℚ → ℚ → ℚ) (m : ℤ) (c g : ℚ) (cancel : ℕ → Bool) (sz : ℕ) :
    ∀ (i : ℕ) (bs : List BandData),
      ((runLoop pw m c g cancel sz i bs).2.1).length = bs.length := by
  intro i bs
  induction bs generalizing i with
  | nil => rfl
  | cons b rest ih =>
    unfold runLoop
    by_cases hc : cancel i
    · simp [hc]
    · simp only [hc, Bool.false_eq_true, if_false]
      cases hp : processBand pw m c g b <;> simp [ih]

/-- Claim C9: every run that passes the zero-band check and the method
index lookup creates the output with the geotransform and projection
copied verbatim from the input and one output band per input band,
whatever the method and parameters. -/
theorem C9_geometry_preserved (pw : ℚ → ℚ → ℚ) (m : ℤ) (c g : ℚ) (cancel : ℕ → Bool)
    (ds : InputDS) (p : String) (hn : ds.bands.length ≠ 0) (hm : -3 ≤ m ∧ m < 3) :
    (run pw m c g cancel ds p).geotransform = ds.geotransform
    ∧ (run pw m c g cancel ds p).projection = ds.projection
    ∧ (run pw m c g cancel ds p).outBands.length = ds.bands.length := by
  unfold run
  rw [if_neg hn, if_neg (not_not_intro hm)]
  refine ⟨rfl, rfl, ?_⟩
  simp [runLoop_outs_length]

/-- Witness for claim C9 on a concrete one-band dataset. -/
theorem C9_geometry_preserved_witness :
    (dsEx1.bands.length ≠ 0 ∧ (-3 ≤ (0 : ℤ) ∧ (0 : ℤ) < 3))
    ∧ ((run (fun _ _ => 0) 0 0 1 (fun _ => false) dsEx1 ("o")).geotransform = dsEx1.geotransform
      ∧ (run (fun _ _ => 0) 0 0 1 (fun _ => false) dsEx1 ("o")).projection = dsEx1.projection
      ∧ (run (fun _ _ => 0) 0 0 1 (fun _ => false) dsEx1 ("o")).outBands.length
        = dsEx1.bands.length) :=
  ⟨⟨by with_unfolding_all decide, by decide⟩,
    C9_geometry_preserved (fun _ _ => 0) 0 0 1 (fun _ => false) dsEx1 ("o")
      (by with_unfolding_all decide) (by decide)⟩

/-- Claim C10, counterexample: with method index 3 the claim predicts a
completed run whose bands are written as zero; in the source the progress
message indexes self.methods with 3 and raises IndexError before the
output dataset is created, so the run returns the empty result and writes
nothing at all. -/
theorem C10_invalid_method_counterexample :
    (run (fun _ _ => 0) 3 2 1 (fun _ => false) dsEx1 ("o")).result = none
    ∧ (run (fun _ _ => 0) 3 2 1 (fun _ => false) dsEx1 ("o")).outputCreated = false
    ∧ Ev.writeBand 1 ∉ (run (fun _ _ => 0) 3 2 1 (fun _ => false) dsEx1 ("o")).trace := by
  with_unfolding_all decide

/-! Length bookkeeping for the method branches and the scatter step. -/

theorem linearStretchValid_length (c : ℚ) (V : List ℚ) :
    (linearStretchValid c V).length = V.length := by
  unfold linearStretchValid
  dsimp only
  split <;> simp

theorem equalizeValid_length (V : List ℚ) : (equalizeValid V).length = V.length := by
  simp [equalizeValid]

theorem gammaValid_length (pw : ℚ → ℚ → ℚ) (g : ℚ) (V : List ℚ) (l : List ℕ)
    (h : gammaValid pw g V = some l) : l.length = V.length := by
  unfold gammaValid at h
  by_cases hg : g = 0
  · rw [if_pos hg] at h; cases h
  · rw [if_neg hg] at h
    have h2 := Option.some.inj h
    rw [← h2]
    by_cases hr : listMaxD V 0 - listMinD V 0 = 0 <;> simp [hr]

theorem methodOutputs_length (pw : ℚ → ℚ → ℚ) (m : ℤ) (c g : ℚ) (V : List ℚ)
    (vals : List (Option ℕ)) (h : methodOutputs pw m c g V = some vals) :
    vals.length = V.length := by
  unfold methodOutputs at h
  by_cases h0 : m = 0
  · rw [if_pos h0] at h
    rw [← Option.some.inj h]
    exact linearStretchValid_length c V
  rw [if_neg h0] at h
  by_cases h1 : m = 1
  · rw [if_pos h1] at h
    rw [← Option.some.inj h]
    simp [equalizeValid_length]
  rw [if_neg h1] at h
  by_cases h2 : m = 2
  · rw [if_pos h2] at h
    cases hg : gammaValid pw g V with
    | none => rw [hg] at h; cases h
    | some l =>
      rw [hg] at h
      have h3 : (l.map some : List (Option ℕ)) = vals := by simpa using h
      rw [← h3]
      simp [gammaValid_length pw g V l hg]
  · rw [if_neg h2] at h
    rw [← Option.some.inj h]
    simp

theorem filter_not_map_decide (nd : ℚ) : ∀ (data : List ℚ),
    (data.filter (fun x => !(decide (x = nd)))).length
      = ((data.map (fun x => decide (x = nd))).filter (fun x => !x)).length := by
  intro data
  induction data with
  | nil => rfl
  | cons x t ih => by_cases hx : x = nd <;> simp [hx, ih]

theorem filter_not_map_false : ∀ (data : List ℚ),
    data.length = ((data.map (fun _ => false)).filter (fun x => !x)).length := by
  intro data
  induction data with
  | nil => rfl
  | cons x t ih =>
    rw [List.map_cons, List.filter_cons_of_pos (by rfl), List.length_cons, List.length_cons, ih]

/-- The valid sample list has exactly as many entries as the mask has
false positions. -/
theorem validOf_length_eq (b : BandData) :
    (validOf b).length = ((maskOf b).filter (fun x => !x)).length := by
  unfold validOf maskOf
  cases b.nodata with
  | none => exact filter_not_map_false b.data
  | some nd => exact filter_not_map_decide nd b.data

theorem scatter_getElem_true :
    ∀ (ms : List Bool) (vs : List (Option ℕ)) (i : ℕ),
      vs.length = (ms.filter (fun x => !x)).length →
      ms[i]? = some true → (scatter ms vs)[i]? = some (some 0) := by
  intro ms
  induction ms with
  | nil => intro vs i _ hm; simp at hm
  | cons m t ih =>
    intro vs i hlen hm
    cases m with
    | true =>
      cases i with
      | zero => simp [scatter]
      | succ j =>
        have hm2 : t[j]? = some true := by simpa using hm
        have hlen2 : vs.length = (t.filter (fun x => !x)).length := by simpa using hlen
        simpa [scatter] using ih vs j hlen2 hm2
    | false =>
      cases vs with
      | nil => simp at hlen
      | cons v vs2 =>
        cases i with
        | zero => simp at hm
        | succ j =>
          have hm2 : t[j]? = some true := by simpa using hm
          have hlen2 : vs2.length = (t.filter (fun x => !x)).length := by simpa using hlen
          simpa [scatter] using ih vs2 j hlen2 hm2

theorem scatter_all_zero :
    ∀ (ms : List Bool) (vs : List (Option ℕ)),
      vs.length = (ms.filter (fun x => !x)).length →
      (∀ v ∈ vs, v = some 0) →
      scatter ms vs = ms.map (fun _ => some 0) := by
  intro ms
  induction ms with
  | nil => intro vs _ _; rfl
  | cons m t ih =>
    intro vs hlen hall
    cases m with
    | true =>
      simp only [scatter, List.map_cons]
      rw [ih vs (by simpa using hlen) hall]
    | false =>
      cases vs with
      | nil => simp at hlen
      | cons v vs2 =>
        simp only [scatter, List.map_cons]
        rw [hall v (List.mem_cons_self v vs2),
          ih vs2 (by simpa using hlen) (fun u hu => hall u (List.mem_cons_of_mem _ hu))]

/-- Claim C4: whenever a band is written, every position that the nodata
mask marks carries the output sample 0, whatever the method index and
parameters, because line 200 of the source assigns 0 to all masked
positions of the zero-initialised buffer. -/
theorem C4_nodata_zero (pw : ℚ → ℚ → ℚ) (m : ℤ) (c g : ℚ) (b : BandData)
    (out : List (Option ℕ)) (i : ℕ)
    (hw : processBand pw m c g b = .written out)
    (hmask : (maskOf b)[i]? = some true) :
    out[i]? = some (some 0) := by
  unfold processBand at hw
  by_cases he : (validOf b).isEmpty
  · rw [if_pos he] at hw; cases hw
  · rw [if_neg he] at hw
    cases hmo : methodOutputs pw m c g (validOf b) with
    | none => rw [hmo] at hw; cases hw
    | some vals =>
      rw [hmo] at hw
      simp only [BandStep.written.injEq] at hw
      rw [← hw]
      apply scatter_getElem_true _ _ _ _ hmask
      rw [methodOutputs_length pw m c g _ vals hmo, validOf_length_eq]

/-- Witness for claim C4 on a band with one nodata pixel under Linear
Stretch. -/
theorem C4_nodata_zero_witness :
    (processBand (fun _ _ => 0) 0 0 1 ⟨[9, 0, 1], some 9⟩
        = .written [some 0, some 0, some 255]
      ∧ (maskOf ⟨[9, 0, 1], some 9⟩)[0]? = some true)
    ∧ ([some 0, some 0, some 255] : List (Option ℕ))[0]? = some (some 0) :=
  ⟨⟨by with_unfolding_all decide, by with_unfolding_all decide⟩,
    C4_nodata_zero (fun _ _ => 0) 0 0 1 ⟨[9, 0, 1], some 9⟩ [some 0, some 0, some 255] 0
      (by with_unfolding_all decide) (by with_unfolding_all decide)⟩

/-! Characterisations of the band step and closed forms of the band loop. -/

theorem methodOutputs_ne_none (pw : ℚ → ℚ → ℚ) (m : ℤ) (c g : ℚ) (V : List ℚ)
    (hg : m = 2 → g ≠ 0) : methodOutputs pw m c g V ≠ none := by
  unfold methodOutputs
  by_cases h0 : m = 0
  · rw [if_pos h0]; simp
  rw [if_neg h0]
  by_cases h1 : m = 1
  · rw [if_pos h1]; simp
  rw [if_neg h1]
  by_cases h2 : m = 2
  · rw [if_pos h2]
    unfold gammaValid
    rw [if_neg (hg h2)]
    simp
  · rw [if_neg h2]; simp

theorem processBand_not_raised (pw : ℚ → ℚ → ℚ) (m : ℤ) (c g : ℚ) (b : BandData)
    (hg : m = 2 → g ≠ 0) : processBand pw m c g b ≠ .raised := by
  unfold processBand
  by_cases he : (validOf b).isEmpty
  · rw [if_pos he]; simp
  · rw [if_neg he]
    cases hmo : methodOutputs pw m c g (validOf b) with
    | none => exact absurd hmo (methodOutputs_ne_none pw m c g _ hg)
    | some vals => simp

theorem processBand_skipped_of_empty (pw : ℚ → ℚ → ℚ) (m : ℤ) (c g : ℚ) (b : BandData)
    (he : (validOf b).isEmpty = true) : processBand pw m c g b = .skipped := by
  unfold processBand
  rw [if_pos he]

theorem processBand_written_of_nonempty (pw : ℚ → ℚ → ℚ) (m : ℤ) (c g : ℚ) (b : BandData)
    (he : (validOf b).isEmpty = false) (hg : m = 2 → g ≠ 0) :
    ∃ out, processBand pw m c g b = .written out := by
  unfold processBand
  rw [if_neg (by simp [he])]
  cases hmo : methodOutputs pw m c g (validOf b) with
  | none => exact absurd hmo (methodOutputs_ne_none pw m c g _ hg)
  | some vals => exact ⟨scatter (maskOf b) vals, rfl⟩

theorem methodOutputs_default (pw : ℚ → ℚ → ℚ) (m : ℤ) (c g : ℚ) (V : List ℚ)
    (h0 : m ≠ 0) (h1 : m ≠ 1) (h2 : m ≠ 2) :
    methodOutputs pw m c g V = some (V.map (fun _ => some 0)) := by
  unfold methodOutputs
  rw [if_neg h0, if_neg h1, if_neg h2]

theorem maskOf_map_const (b : BandData) :
    (maskOf b).map (fun _ => (some 0 : Option ℕ)) = b.data.map (fun _ => (some 0 : Option ℕ)) := by
  unfold maskOf
  cases b.nodata <;> rw [List.map_map] <;> rfl

/-- With a method index outside 0, 1, 2 the zero-initialised buffer is
written unchanged: every pixel of the band, masked or not, comes out 0. -/
theorem processBand_default_written (pw : ℚ → ℚ → ℚ) (m : ℤ) (c g : ℚ) (b : BandData)
    (h0 : m ≠ 0) (h1 : m ≠ 1) (h2 : m ≠ 2) (hne : (validOf b).isEmpty = false) :
    processBand pw m c g b = .written (b.data.map (fun _ => some 0)) := by
  unfold processBand
  rw [if_neg (by simp [hne]), methodOutputs_default pw m c g _ h0 h1 h2]
  have hz := scatter_all_zero (maskOf b) ((validOf b).map (fun _ => some 0))
    (by rw [List.length_map, validOf_length_eq])
    (by
      intro v hv
      obtain ⟨x, _, hfx⟩ := List.mem_map.mp hv
      exact hfx.symm)
  simp only [hz, maskOf_map_const]

theorem runLoop_no_cancel (pw : ℚ → ℚ → ℚ) (m : ℤ) (c g : ℚ) (cancel : ℕ → Bool) (sz : ℕ)
    (hnc : ∀ j, cancel j = false) (hg : m = 2 → g ≠ 0) :
    ∀ (i : ℕ) (bs : List BandData),
      runLoop pw m c g cancel sz i bs
        = (loopEvs pw m c g i bs, bs.map (bandOut pw m c g sz), true) := by
  intro i bs
  induction bs generalizing i with
  | nil => rfl
  | cons b rest ih =>
    unfold runLoop
    rw [hnc i]
    simp only [Bool.false_eq_true, if_false]
    cases hp : processBand pw m c g b with
    | raised => exact absurd hp (processBand_not_raised pw m c g b hg)
    | skipped => simp [loopEvs, bandEvs, bandOut, hp, ih (i + 1)]
    | written out => simp [loopEvs, bandEvs, bandOut, hp, ih (i + 1)]

theorem runLoop_cancel_at (pw : ℚ → ℚ → ℚ) (m : ℤ) (c g : ℚ) (cancel : ℕ → Bool) (sz : ℕ)
    (hg : m = 2 → g ≠ 0) :
    ∀ (t i : ℕ) (bs : List BandData), t < bs.length →
      (∀ s, s < t → cancel (i + s) = false) → cancel (i + t) = true →
      runLoop pw m c g cancel sz i bs
        = (loopEvs pw m c g i (bs.take t) ++ [.checkCancel (i + t)],
           (bs.take t).map (bandOut pw m c g sz)
             ++ (bs.drop t).map (fun _ => (zerosBand sz, false)),
           true) := by
  intro t
  induction t with
  | zero =>
    intro i bs hlt hprev hc
    cases bs with
    | nil => simp at hlt
    | cons b rest =>
      unfold runLoop
      have hc0 : cancel i = true := by simpa using hc
      rw [hc0]
      simp [loopEvs]
  | succ t ih =>
    intro i bs hlt hprev hc
    cases bs with
    | nil => simp at hlt
    | cons b rest =>
      unfold runLoop
      have hc0 : cancel i = false := by simpa using hprev 0 (Nat.succ_pos t)
      rw [hc0]
      simp only [Bool.false_eq_true, if_false]
      have harith : i + 1 + t = i + (t + 1) := by omega
      have ih2 := ih (i + 1) rest (by simpa using hlt)
        (fun s hs => by
          have hp2 := hprev (s + 1) (Nat.succ_lt_succ hs)
          rw [show i + 1 + s = i + (s + 1) by omega]
          exact hp2)
        (by rw [harith]; exact hc)
      cases hp : processBand pw m c g b with
      | raised => exact absurd hp (processBand_not_raised pw m c g b hg)
      | skipped => simp [loopEvs, bandEvs, bandOut, hp, ih2, harith]
      | written out => simp [loopEvs, bandEvs, bandOut, hp, ih2, harith]

/-! Event bookkeeping over the loop trace. -/

theorem count_checkCancel_bandEvs (pw : ℚ → ℚ → ℚ) (m : ℤ) (c g : ℚ) (i r : ℕ)
    (b : BandData) :
    (bandEvs pw m c g i b).count (Ev.checkCancel r) = if r = i then 1 else 0 := by
  unfold bandEvs
  cases processBand pw m c g b <;> by_cases hr : r = i <;>
    simp [hr, List.count_cons, List.count_nil]

theorem count_checkCancel_loopEvs (pw : ℚ → ℚ → ℚ) (m : ℤ) (c g : ℚ) :
    ∀ (bs : List BandData) (i r : ℕ),
      (loopEvs pw m c g i bs).count (Ev.checkCancel r)
        = if i ≤ r ∧ r < i + bs.length then 1 else 0 := by
  intro bs
  induction bs with
  | nil =>
    intro i r
    simp only [loopEvs, List.count_nil, List.length_nil, Nat.add_zero]
    split_ifs with h
    · omega
    · rfl
  | cons b rest ih =>
    intro i r
    simp only [loopEvs, List.count_append, count_checkCancel_bandEvs, ih (i + 1),
      List.length_cons]
    split_ifs <;> omega

theorem mem_bandEvs_cases (pw : ℚ → ℚ → ℚ) (m : ℤ) (c g : ℚ) (i : ℕ) (b : BandData)
    (e : Ev) (h : e ∈ bandEvs pw m c g i b) :
    e = .checkCancel i ∨ e = .readBand i ∨ e = .warnEmpty i ∨ e = .writeBand i := by
  unfold bandEvs at h
  rcases hp : processBand pw m c g b with _ | out | _ <;> rw [hp] at h <;> simp at h <;> tauto

theorem readBand_mem_loopEvs_bound (pw : ℚ → ℚ → ℚ) (m : ℤ) (c g : ℚ) :
    ∀ (bs : List BandData) (i r : ℕ),
      Ev.readBand r ∈ loopEvs pw m c g i bs → i ≤ r ∧ r < i + bs.length := by
  intro bs
  induction bs with
  | nil => intro i r h; simp [loopEvs] at h
  | cons b rest ih =>
    intro i r h
    simp only [loopEvs, List.mem_append] at h
    rcases h with h | h
    · have h2 := mem_bandEvs_cases pw m c g i b _ h
      have h3 : r = i := by
        rcases h2 with h1 | h1 | h1 | h1
        · exact absurd h1 (by simp)
        · injection h1
        · exact absurd h1 (by simp)
        · exact absurd h1 (by simp)
      simp only [List.length_cons]
      omega
    · have := ih (i + 1) r h
      simp only [List.length_cons]
      omega

theorem writeBand_mem_loopEvs_bound (pw : ℚ → ℚ → ℚ) (m : ℤ) (c g : ℚ) :
    ∀ (bs : List BandData) (i r : ℕ),
      Ev.writeBand r ∈ loopEvs pw m c g i bs → i ≤ r ∧ r < i + bs.length := by
  intro bs
  induction bs with
  | nil => intro i r h; simp [loopEvs] at h
  | cons b rest ih =>
    intro i r h
    simp only [loopEvs, List.mem_append] at h
    rcases h with h | h
    · have h2 := mem_bandEvs_cases pw m c g i b _ h
      have h3 : r = i := by
        rcases h2 with h1 | h1 | h1 | h1
        · exact absurd h1 (by simp)
        · exact absurd h1 (by simp)
        · exact absurd h1 (by simp)
        · injection h1
      simp only [List.length_cons]
      omega
    · have := ih (i + 1) r h
      simp only [List.length_cons]
      omega

theorem bandEvs_mem_loopEvs (pw : ℚ → ℚ → ℚ) (m : ℤ) (c g : ℚ) :
    ∀ (bs : List BandData) (i j : ℕ) (b : BandData), bs[j]? = some b →
      ∀ e ∈ bandEvs pw m c g (i + j) b, e ∈ loopEvs pw m c g i bs := by
  intro bs
  induction bs with
  | nil => intro i j b h; simp at h
  | cons b0 rest ih =>
    intro i j b h e he
    cases j with
    | zero =>
      have hb : b0 = b := by simpa using h
      subst hb
      simp only [loopEvs, List.mem_append]
      left
      simpa using he
    | succ j2 =>
      simp only [List.getElem?_cons_succ] at h
      simp only [loopEvs, List.mem_append]
      right
      refine ih (i + 1) j2 b h e ?_
      rwa [show i + 1 + j2 = i + (j2 + 1) by omega]

/-- A concrete three-band input dataset whose middle band is fully nodata. -/
def dsEx3 : InputDS := ⟨2, 1, [0, 1, 0, 0, 0, 1], "EPSG:4326",
  [⟨[0, 1], none⟩, ⟨[7, 7], some 7⟩, ⟨[0, 2], none⟩]⟩

/-- A cancellation flag that turns on at the check before band 2. -/
def cancelEx : ℕ → Bool := fun i => decide (i = 2)

/-- Claim C7: a band with no valid samples raises the empty-band warning
and is skipped, leaving its output slot at the zero fill the created file
starts with, while every band with valid samples is written; the run keeps
going and completes normally. -/
theorem C7_empty_band_skipped (pw : ℚ → ℚ → ℚ) (m : ℤ) (c g : ℚ) (cancel : ℕ → Bool)
    (ds : InputDS) (p : String) (hm : -3 ≤ m ∧ m < 3) (hg : m = 2 → g ≠ 0)
    (hnc : ∀ j, cancel j = false) (hn : ds.bands.length ≠ 0) :
    (run pw m c g cancel ds p).result = some p
    ∧ (∀ j b, ds.bands[j]? = some b → (validOf b).isEmpty = true →
        (run pw m c g cancel ds p).outBands[j]? = some (zerosBand (ds.cols * ds.rows))
        ∧ Ev.warnEmpty (j + 1) ∈ (run pw m c g cancel ds p).trace)
    ∧ (∀ j b, ds.bands[j]? = some b → (validOf b).isEmpty = false →
        Ev.writeBand (j + 1) ∈ (run pw m c g cancel ds p).trace) := by
  unfold run
  rw [if_neg hn, if_neg (not_not_intro hm)]
  simp only [runLoop_no_cancel pw m c g cancel (ds.cols * ds.rows) hnc hg]
  refine ⟨by simp, ?_, ?_⟩
  · intro j b hj he
    have hpb := processBand_skipped_of_empty pw m c g b he
    constructor
    · simp only [List.map_map, List.getElem?_map, hj, Option.map_some']
      simp [bandOut, hpb]
    · have hmem := bandEvs_mem_loopEvs pw m c g ds.bands 1 j b hj (Ev.warnEmpty (1 + j))
        (by simp [bandEvs, hpb])
      rw [show 1 + j = j + 1 by omega] at hmem
      simp only [List.mem_append]
      left
      right
      exact hmem
  · intro j b hj he
    obtain ⟨out, hpb⟩ := processBand_written_of_nonempty pw m c g b he hg
    have hmem := bandEvs_mem_loopEvs pw m c g ds.bands 1 j b hj (Ev.writeBand (1 + j))
      (by simp [bandEvs, hpb])
    rw [show 1 + j = j + 1 by omega] at hmem
    simp only [List.mem_append]
    left
    right
    exact hmem

/-- Witness for claim C7: in the three-band dataset whose band 2 is fully
nodata, that band stays all zero and its warning is emitted. -/
theorem C7_empty_band_skipped_witness :
    ((-3 ≤ (0 : ℤ) ∧ (0 : ℤ) < 3) ∧ dsEx3.bands.length ≠ 0
      ∧ dsEx3.bands[1]? = some ⟨[7, 7], some 7⟩
      ∧ (validOf ⟨[7, 7], some 7⟩).isEmpty = true)
    ∧ ((run (fun _ _ => 0) 0 0 1 (fun _ => false) dsEx3 ("o")).outBands[1]?
        = some (zerosBand (dsEx3.cols * dsEx3.rows))
      ∧ Ev.warnEmpty 2 ∈ (run (fun _ _ => 0) 0 0 1 (fun _ => false) dsEx3 ("o")).trace) :=
  ⟨⟨by decide, by with_unfolding_all decide, by with_unfolding_all decide,
      by with_unfolding_all decide⟩,
    (C7_empty_band_skipped (fun _ _ => 0) 0 0 1 (fun _ => false) dsEx3 ("o") (by decide)
      (fun h => absurd h (by decide)) (fun _ => rfl) (by with_unfolding_all decide)).2.1 1
      ⟨[7, 7], some 7⟩ (by with_unfolding_all decide) (by with_unfolding_all decide)⟩

/-- Claim C8: when the cancellation flag first turns on at the check
before band k, the run emits exactly one cancellation check per started
band and one final check at k, reads and writes no band from k on, leaves
the slots from k on at the zero fill, keeps the bands written before k,
and still closes both datasets and completes. -/
theorem C8_cancellation (pw : ℚ → ℚ → ℚ) (m : ℤ) (c g : ℚ) (cancel : ℕ → Bool)
    (ds : InputDS) (p : String) (k : ℕ) (hm : -3 ≤ m ∧ m < 3) (hg : m = 2 → g ≠ 0)
    (hk1 : 1 ≤ k) (hk2 : k ≤ ds.bands.length) (hc : cancel k = true)
    (hprev : ∀ j, 1 ≤ j → j < k → cancel j = false) :
    (Ev.closeDatasets ∈ (run pw m c g cancel ds p).trace
      ∧ Ev.complete ∈ (run pw m c g cancel ds p).trace
      ∧ (run pw m c g cancel ds p).result = some p)
    ∧ (∀ r, k ≤ r → Ev.readBand r ∉ (run pw m c g cancel ds p).trace
        ∧ Ev.writeBand r ∉ (run pw m c g cancel ds p).trace)
    ∧ (∀ r, ((run pw m c g cancel ds p).trace).count (Ev.checkCancel r)
        = if 1 ≤ r ∧ r ≤ k then 1 else 0)
    ∧ (∀ j, k - 1 ≤ j → j < ds.bands.length →
        (run pw m c g cancel ds p).outBands[j]? = some (zerosBand (ds.cols * ds.rows)))
    ∧ (∀ j b, j < k - 1 → ds.bands[j]? = some b →
        (run pw m c g cancel ds p).outBands[j]?
          = some ((bandOut pw m c g (ds.cols * ds.rows) b).1)) := by
  have hn : ds.bands.length ≠ 0 := by omega
  have ht : k - 1 < ds.bands.length := by omega
  have hL := runLoop_cancel_at pw m c g cancel (ds.cols * ds.rows) hg (k - 1) 1 ds.bands ht
    (fun s hs => hprev (1 + s) (by omega) (by omega))
    (by rw [show 1 + (k - 1) = k by omega]; exact hc)
  unfold run
  rw [if_neg hn, if_neg (not_not_intro hm)]
  simp only [hL]
  have hlen : (ds.bands.take (k - 1)).length = k - 1 := by
    rw [List.length_take]; omega
  refine ⟨⟨by simp, by simp, by simp⟩, ?_, ?_, ?_, ?_⟩
  · intro r hr
    constructor
    · intro hmem
      simp only [List.cons_append, List.nil_append, List.mem_append, List.mem_cons,
        List.mem_singleton, List.not_mem_nil, or_false, reduceCtorEq, false_or] at hmem
      rcases hmem with hmem | hmem
      · have hb := readBand_mem_loopEvs_bound pw m c g _ 1 r hmem
        omega
      · simp at hmem
    · intro hmem
      simp only [List.cons_append, List.nil_append, List.mem_append, List.mem_cons,
        List.mem_singleton, List.not_mem_nil, or_false, reduceCtorEq, false_or] at hmem
      rcases hmem with hmem | hmem
      · have hb := writeBand_mem_loopEvs_bound pw m c g _ 1 r hmem
        omega
      · simp at hmem
  · intro r
    have e2 : ∀ x : ℕ, List.count (Ev.checkCancel r) [Ev.checkCancel x]
        = if r = x then 1 else 0 := by
      intro x
      by_cases h : r = x <;> simp [List.count_cons, h]
    simp only [List.cons_append, List.nil_append]
    simp [List.count_append, List.count_cons, count_checkCancel_loopEvs, hlen, e2]
    split_ifs <;> omega
  · intro j hj1 hj2
    simp only [List.map_append, List.map_map]
    rw [List.getElem?_append_right (by simp [hlen]; omega)]
    simp only [List.length_map, hlen]
    have hd : (ds.bands.drop (k - 1))[j - (k - 1)]? = some (ds.bands[j]) := by
      rw [List.getElem?_drop, show k - 1 + (j - (k - 1)) = j by omega]
      exact List.getElem?_eq_getElem hj2
    rw [List.getElem?_map, hd]
    rfl
  · intro j b hj hjb
    simp only [List.map_append, List.map_map]
    rw [List.getElem?_append_left (by simp [hlen]; omega)]
    have hjt : (ds.bands.take (k - 1))[j]? = some b := by
      rw [List.getElem?_take, if_pos (by omega)]
      exact hjb
    rw [List.getElem?_map, hjt]
    rfl

/-- Witness for claim C8: in the three-band dataset with cancellation
turning on at the check before band 2, band 1 is kept, band 2 stays zero,
band 2 is never read and the datasets are still closed. -/
theorem C8_cancellation_witness :
    (cancelEx 2 = true ∧ (-3 ≤ (0 : ℤ) ∧ (0 : ℤ) < 3) ∧ 1 ≤ 2
      ∧ 2 ≤ dsEx3.bands.length)
    ∧ (Ev.closeDatasets ∈ (run (fun _ _ => 0) 0 0 1 cancelEx dsEx3 ("o")).trace
      ∧ Ev.readBand 2 ∉ (run (fun _ _ => 0) 0 0 1 cancelEx dsEx3 ("o")).trace
      ∧ (run (fun _ _ => 0) 0 0 1 cancelEx dsEx3 ("o")).outBands[1]?
        = some (zerosBand (dsEx3.cols * dsEx3.rows))
      ∧ (run (fun _ _ => 0) 0 0 1 cancelEx dsEx3 ("o")).outBands[0]?
        = some ((bandOut (fun _ _ => 0) 0 0 1 (dsEx3.cols * dsEx3.rows) ⟨[0, 1], none⟩).1)) := by
  have hthm := C8_cancellation (fun _ _ => 0) 0 0 1 cancelEx dsEx3 ("o") 2 (by decide)
    (fun h => absurd h (by decide)) (by decide) (by with_unfolding_all decide) rfl
    (fun j h1 h2 => by
      have hj : j = 1 := by omega
      subst hj
      rfl)
  exact ⟨⟨rfl, by decide, by decide, by with_unfolding_all decide⟩,
    hthm.1.1, (hthm.2.1 2 (le_refl 2)).1,
    hthm.2.2.2.1 1 (by omega) (by with_unfolding_all decide),
    hthm.2.2.2.2 0 ⟨[0, 1], none⟩ (by omega) (by with_unfolding_all decide)⟩

/-- Claim C10, amended: only for the method indexes -3, -2 and -1 does the
progress message indexing of self.methods succeed while no enhancement
branch matches; for those the run completes, and every band with at least
one valid sample is written with the untouched zero buffer, every pixel 0,
and its nodata value set to 0. For any other index outside 0, 1, 2 the
IndexError at the progress message aborts the run before the output is
created. -/
theorem C10_negative_method (pw : ℚ → ℚ → ℚ) (m : ℤ) (c g : ℚ) (cancel : ℕ → Bool)
    (ds : InputDS) (p : String) (hm : -3 ≤ m ∧ m < 0) (hnc : ∀ j, cancel j = false)
    (hn : ds.bands.length ≠ 0) :
    (run pw m c g cancel ds p).result = some p
    ∧ (∀ (j : ℕ) (b : BandData), ds.bands[j]? = some b → (validOf b).isEmpty = false →
        (run pw m c g cancel ds p).outBands[j]? = some (b.data.map (fun _ => some 0))
        ∧ (run pw m c g cancel ds p).nodataSet[j]? = some true) := by
  have hm3 : -3 ≤ m ∧ m < 3 := ⟨hm.1, by omega⟩
  have hg : m = 2 → g ≠ 0 := fun h => absurd h (by omega)
  unfold run
  rw [if_neg hn, if_neg (not_not_intro hm3)]
  simp only [runLoop_no_cancel pw m c g cancel (ds.cols * ds.rows) hnc hg]
  refine ⟨by simp, ?_⟩
  intro j b hj hv
  have hpb := processBand_default_written pw m c g b (by omega) (by omega) (by omega) hv
  constructor
  · simp only [List.map_map, List.getElem?_map, hj, Option.map_some']
    simp [bandOut, hpb]
  · simp only [List.map_map, List.getElem?_map, hj, Option.map_some']
    simp [bandOut, hpb]

/-- Witness for the amended claim C10 at method index -1 on a one-band
dataset. -/
theorem C10_negative_method_witness :
    ((-3 ≤ (-1 : ℤ) ∧ (-1 : ℤ) < 0) ∧ dsEx1.bands.length ≠ 0
      ∧ dsEx1.bands[0]? = some ⟨[0, 1], none⟩
      ∧ (validOf ⟨[0, 1], none⟩).isEmpty = false)
    ∧ ((run (fun _ _ => 0) (-1) 2 1 (fun _ => false) dsEx1 ("o")).result = some ("o")
      ∧ (run (fun _ _ => 0) (-1) 2 1 (fun _ => false) dsEx1 ("o")).outBands[0]?
        = some [some 0, some 0]
      ∧ (run (fun _ _ => 0) (-1) 2 1 (fun _ => false) dsEx1 ("o")).nodataSet[0]?
        = some true) := by
  have hthm := C10_negative_method (fun _ _ => 0) (-1) 2 1 (fun _ => false) dsEx1 ("o")
    (by decide) (fun _ => rfl) (by with_unfolding_all decide)
  have happ := hthm.2 0 ⟨[0, 1], none⟩ (by with_unfolding_all decide)
    (by with_unfolding_all decide)
  exact ⟨⟨by decide, by with_unfolding_all decide, by with_unfolding_all decide,
      by with_unfolding_all decide⟩,
    hthm.1, happ.1, happ.2⟩

/-! Monotonicity of the Equalization mapping. -/

theorem toU8_le_255 (q : ℚ) : toU8 q ≤ 255 := by
  unfold toU8
  have h1 : ((if q < 0 then ⌈q⌉ else ⌊q⌋) % 256) < 256 :=
    Int.emod_lt_of_pos _ (by norm_num)
  omega

theorem toU8_mono (a b : ℚ) (ha : 0 ≤ a) (hb : b ≤ 255) (hab : a ≤ b) :
    toU8 a ≤ toU8 b := by
  unfold toU8
  rw [if_neg (not_lt.mpr ha), if_neg (not_lt.mpr (le_trans ha hab))]
  have h1 : (0 : ℤ) ≤ ⌊a⌋ := Int.floor_nonneg.mpr ha
  have h2 : ⌊b⌋ ≤ 255 := by
    calc ⌊b⌋ ≤ ⌊(255 : ℚ)⌋ := Int.floor_le_floor hb
    _ = 255 := by norm_num
  have h3 : ⌊a⌋ ≤ ⌊b⌋ := Int.floor_le_floor hab
  rw [Int.emod_eq_of_lt h1 (by omega), Int.emod_eq_of_lt (by omega) (by omega)]
  omega

theorem chain'_cumsumGo : ∀ (l : List ℕ) (a : ℕ), List.Chain' (· ≤ ·) (cumsumGo a l) := by
  intro l
  induction l with
  | nil => intro a; simp [cumsumGo]
  | cons h t ih =>
    intro a
    have heq : cumsumGo a (h :: t) = (a + h) :: cumsumGo (a + h) t := rfl
    rw [heq]
    apply List.chain'_cons'.mpr
    constructor
    · intro b hb
      cases t with
      | nil => simp [cumsumGo] at hb
      | cons h2 t2 =>
        have heq2 : cumsumGo (a + h) (h2 :: t2) = (a + h + h2) :: cumsumGo (a + h + h2) t2 := rfl
        rw [heq2] at hb
        simp at hb
        omega
    · exact ih (a + h)

theorem chain'_cumsum (l : List ℕ) : List.Chain' (· ≤ ·) (cumsum l) :=
  chain'_cumsumGo l 0

theorem scaleCdf_mem (cdf : List ℕ) (q : ℚ) (hq : q ∈ scaleCdf cdf) :
    0 ≤ q ∧ q ≤ 255 := by
  unfold scaleCdf at hq
  by_cases hMm : listMaxD cdf 0 > listMinD cdf 0
  · rw [if_pos hMm] at hq
    obtain ⟨v, hv, hfv⟩ := List.mem_map.mp hq
    rw [← hfv]
    have h1 : listMinD cdf 0 ≤ v := listMinD_le_mem cdf 0 v hv
    have h2 : v ≤ listMaxD cdf 0 := listMaxD_mem_le cdf 0 v hv
    have hd : (0 : ℚ) < ((listMaxD cdf 0 : ℕ) : ℚ) - ((listMinD cdf 0 : ℕ) : ℚ) := by
      rw [sub_pos]
      exact_mod_cast hMm
    have h1q : ((listMinD cdf 0 : ℕ) : ℚ) ≤ (v : ℚ) := by exact_mod_cast h1
    have h2q : (v : ℚ) ≤ ((listMaxD cdf 0 : ℕ) : ℚ) := by exact_mod_cast h2
    constructor
    · apply div_nonneg _ hd.le
      nlinarith
    · rw [div_le_iff₀ hd]
      nlinarith
  · rw [if_neg hMm] at hq
    obtain ⟨v, hv, hfv⟩ := List.mem_map.mp hq
    rw [← hfv]
    norm_num

theorem chain'_scaleCdf (cdf : List ℕ) (h : List.Chain' (· ≤ ·) cdf) :
    List.Chain' (· ≤ ·) (scaleCdf cdf) := by
  unfold scaleCdf
  by_cases hMm : listMaxD cdf 0 > listMinD cdf 0
  · rw [if_pos hMm, List.chain'_map]
    refine h.imp ?_
    intro a b hab
    have hd : (0 : ℚ) < ((listMaxD cdf 0 : ℕ) : ℚ) - ((listMinD cdf 0 : ℕ) : ℚ) := by
      rw [sub_pos]
      exact_mod_cast hMm
    have habq : (a : ℚ) ≤ (b : ℚ) := by exact_mod_cast hab
    apply (div_le_div_right hd).mpr
    nlinarith
  · rw [if_neg hMm, List.chain'_map]
    exact h.imp (fun _ _ _ => le_refl 0)

theorem chain'_le_map_mono_on (g : ℚ → ℚ) :
    ∀ (l : List ℚ), List.Chain' (· ≤ ·) l →
      (∀ a b, a ∈ l → b ∈ l → a ≤ b → g a ≤ g b) →
      List.Chain' (· ≤ ·) (l.map g) := by
  intro l
  induction l with
  | nil => intro _ _; simp
  | cons x t ih =>
    intro hc hg
    cases t with
    | nil => simp
    | cons y t2 =>
      obtain ⟨hxy, hc2⟩ := List.chain'_cons.mp hc
      rw [List.map_cons, List.map_cons, List.chain'_cons]
      constructor
      · exact hg x y (by simp) (by simp) hxy
      · rw [← List.map_cons]
        exact ih hc2
          (fun a b ha hb hab =>
            hg a b (List.mem_cons_of_mem _ ha) (List.mem_cons_of_mem _ hb) hab)

theorem cdfLookup_mem (V : List ℚ) (q : ℚ) (hq : q ∈ cdfLookup V) :
    0 ≤ q ∧ q ≤ 255 := by
  unfold cdfLookup at hq
  obtain ⟨v, _, hfv⟩ := List.mem_map.mp hq
  rw [← hfv]
  constructor
  · exact_mod_cast Nat.zero_le (toU8 v)
  · exact_mod_cast toU8_le_255 v

theorem chain'_cdfLookup (V : List ℚ) : List.Chain' (· ≤ ·) (cdfLookup V) := by
  unfold cdfLookup
  generalize histogram (eqLo V) (eqHi V) V = hist
  apply chain'_le_map_mono_on
  · exact chain'_scaleCdf _ (chain'_cumsum _)
  · intro a b ha hb hab
    have hA := scaleCdf_mem _ a ha
    have hB := scaleCdf_mem _ b hb
    exact_mod_cast toU8_mono a b hA.1 hB.2 hab

theorem chain'_lt_binsCenter (lo w : ℚ) (hw : 0 < w) :
    List.Chain' (· < ·) (binsCenter lo w) := by
  unfold binsCenter
  rw [List.chain'_map, show (256 : ℕ) = 255 + 1 by norm_num, List.chain'_range_succ]
  intro k hk
  simp only [Nat.succ_eq_add_one]
  have hd : binCenter lo w (k + 1) - binCenter lo w k = w := by
    unfold binCenter
    push_cast
    ring
  linarith

theorem chain'_zip {α β : Type} (R : α → α → Prop) (S : β → β → Prop) :
    ∀ (xs : List α) (ys : List β), List.Chain' R xs → List.Chain' S ys →
      List.Chain' (fun p q => R p.1 q.1 ∧ S p.2 q.2) (xs.zip ys) := by
  intro xs
  induction xs with
  | nil => intro ys _ _; simp
  | cons x xs2 ih =>
    intro ys hx hy
    cases ys with
    | nil => simp
    | cons y ys2 =>
      cases xs2 with
      | nil => simp
      | cons x2 xs3 =>
        cases ys2 with
        | nil => simp
        | cons y2 ys3 =>
          rw [List.zip_cons_cons, List.zip_cons_cons, List.chain'_cons]
          obtain ⟨hx1, hx2⟩ := List.chain'_cons.mp hx
          obtain ⟨hy1, hy2⟩ := List.chain'_cons.mp hy
          refine ⟨⟨hx1, hy1⟩, ?_⟩
          rw [← List.zip_cons_cons]
          exact ih (y2 :: ys3) hx2 hy2

theorem interpPts_nil (x : ℚ) : interpPts x [] = 0 := rfl

theorem interpPts_single (x : ℚ) (p : ℚ × ℚ) : interpPts x [p] = p.2 := rfl

theorem interpPts_cons2 (x : ℚ) (p q : ℚ × ℚ) (rest : List (ℚ × ℚ)) :
    interpPts x (p :: q :: rest)
      = if x ≤ p.1 then p.2
        else if x ≤ q.1 then p.2 + (q.2 - p.2) * (x - p.1) / (q.1 - p.1)
        else interpPts x (q :: rest) := rfl

theorem interpPts_ge_head (x : ℚ) :
    ∀ (rest : List (ℚ × ℚ)) (p : ℚ × ℚ),
      List.Chain' (fun a b : ℚ × ℚ => a.1 < b.1 ∧ a.2 ≤ b.2) (p :: rest) →
      p.2 ≤ interpPts x (p :: rest) := by
  intro rest
  induction rest with
  | nil => intro p _; rw [interpPts_single]
  | cons q rest2 ih =>
    intro p h
    obtain ⟨⟨hx1, hy1⟩, h2⟩ := List.chain'_cons.mp h
    rw [interpPts_cons2]
    by_cases hxp : x ≤ p.1
    · rw [if_pos hxp]
    · rw [if_neg hxp]
      by_cases hxq : x ≤ q.1
      · rw [if_pos hxq]
        have hd : 0 < q.1 - p.1 := sub_pos.mpr hx1
        have hxgt : p.1 < x := not_le.mp hxp
        have hnum : 0 ≤ (q.2 - p.2) * (x - p.1) :=
          mul_nonneg (sub_nonneg.mpr hy1) (sub_nonneg.mpr hxgt.le)
        have hdiv := div_nonneg hnum hd.le
        linarith
      · rw [if_neg hxq]
        exact le_trans hy1 (ih q h2)

theorem interpPts_bounds (x : ℚ) :
    ∀ (pts : List (ℚ × ℚ)),
      List.Chain' (fun a b : ℚ × ℚ => a.1 < b.1 ∧ a.2 ≤ b.2) pts →
      (∀ p ∈ pts, 0 ≤ p.2 ∧ p.2 ≤ 255) →
      0 ≤ interpPts x pts ∧ interpPts x pts ≤ 255 := by
  intro pts
  induction pts with
  | nil =>
    intro _ _
    rw [interpPts_nil]
    norm_num
  | cons p rest ih =>
    cases rest with
    | nil =>
      intro _ hb
      rw [interpPts_single]
      exact hb p (by simp)
    | cons q rest2 =>
      intro h hb
      obtain ⟨⟨hx1, hy1⟩, h2⟩ := List.chain'_cons.mp h
      rw [interpPts_cons2]
      by_cases hxp : x ≤ p.1
      · rw [if_pos hxp]
        exact hb p (by simp)
      · rw [if_neg hxp]
        by_cases hxq : x ≤ q.1
        · rw [if_pos hxq]
          have hd : 0 < q.1 - p.1 := sub_pos.mpr hx1
          have hxgt : p.1 < x := not_le.mp hxp
          have hbp := hb p (by simp)
          have hbq := hb q (by simp)
          have hnum : 0 ≤ (q.2 - p.2) * (x - p.1) :=
            mul_nonneg (sub_nonneg.mpr hy1) (by linarith)
          have hlow := div_nonneg hnum hd.le
          have hupp : (q.2 - p.2) * (x - p.1) / (q.1 - p.1) ≤ q.2 - p.2 := by
            rw [div_le_iff₀ hd]
            exact mul_le_mul_of_nonneg_left (by linarith) (sub_nonneg.mpr hy1)
          constructor <;> linarith
        · rw [if_neg hxq]
          exact ih h2 (fun r hr => hb r (List.mem_cons_of_mem _ hr))

theorem interpPts_mono (x1 x2 : ℚ) (hx : x1 ≤ x2) :
    ∀ (pts : List (ℚ × ℚ)),
      List.Chain' (fun a b : ℚ × ℚ => a.1 < b.1 ∧ a.2 ≤ b.2) pts →
      interpPts x1 pts ≤ interpPts x2 pts := by
  intro pts
  induction pts with
  | nil => intro _; rw [interpPts_nil, interpPts_nil]
  | cons p rest ih =>
    cases rest with
    | nil => intro _; rw [interpPts_single, interpPts_single]
    | cons q rest2 =>
      intro h
      obtain ⟨⟨hpq1, hpq2⟩, h2⟩ := List.chain'_cons.mp h
      have hge := interpPts_ge_head x2 (q :: rest2) p h
      rw [interpPts_cons2 x1]
      by_cases h1p : x1 ≤ p.1
      · rw [if_pos h1p]
        exact hge
      · rw [if_neg h1p]
        rw [interpPts_cons2 x2]
        have h2p : ¬ x2 ≤ p.1 := fun hle => h1p (le_trans hx hle)
        rw [if_neg h2p]
        have hd : 0 < q.1 - p.1 := sub_pos.mpr hpq1
        by_cases h1q : x1 ≤ q.1
        · rw [if_pos h1q]
          by_cases h2q : x2 ≤ q.1
          · rw [if_pos h2q]
            have hnum : (q.2 - p.2) * (x1 - p.1) ≤ (q.2 - p.2) * (x2 - p.1) :=
              mul_le_mul_of_nonneg_left (by linarith) (sub_nonneg.mpr hpq2)
            have := (div_le_div_right hd).mpr hnum
            linarith
          · rw [if_neg h2q]
            have hupp : (q.2 - p.2) * (x1 - p.1) / (q.1 - p.1) ≤ q.2 - p.2 := by
              rw [div_le_iff₀ hd]
              exact mul_le_mul_of_nonneg_left (by linarith) (sub_nonneg.mpr hpq2)
            have hge2 := interpPts_ge_head x2 rest2 q h2
            linarith
        · rw [if_neg h1q]
          have h2q : ¬ x2 ≤ q.1 := fun hle => h1q (le_trans hx hle)
          rw [if_neg h2q]
          exact ih h2

theorem toU8_interp_mono (pts : List (ℚ × ℚ)) (x1 x2 : ℚ) (hx : x1 ≤ x2)
    (hc : List.Chain' (fun a b : ℚ × ℚ => a.1 < b.1 ∧ a.2 ≤ b.2) pts)
    (hb : ∀ p ∈ pts, 0 ≤ p.2 ∧ p.2 ≤ 255) :
    toU8 (interpPts x1 pts) ≤ toU8 (interpPts x2 pts) := by
  have hb1 := interpPts_bounds x1 pts hc hb
  have hb2 := interpPts_bounds x2 pts hc hb
  exact toU8_mono _ _ hb1.1 hb2.2 (interpPts_mono x1 x2 hx pts hc)

theorem eqHi_sub_eqLo_pos (V : List ℚ) (hne : V ≠ []) : 0 < eqHi V - eqLo V := by
  unfold eqLo eqHi
  by_cases h : listMinD V 0 = listMaxD V 0
  · rw [if_pos h, if_pos h]
    linarith
  · rw [if_neg h, if_neg h]
    have hle := listMinD_le_listMaxD V 0 hne
    have hlt := lt_of_le_of_ne hle h
    linarith

/-- Claim C5: the Equalization mapping of a band is monotone
non-decreasing on valid samples: the cdf is a running sum, its affine
rescaling and uint8 truncation keep it non-decreasing, the bin centers are
strictly increasing, and np.interp against such a table is monotone, as is
the final uint8 truncation of values that stay within 0..255. -/
theorem C5_equalization_monotone (V : List ℚ) (x1 x2 : ℚ) (hne : V ≠ [])
    (hm1 : x1 ∈ V) (hm2 : x2 ∈ V) (hx : x1 < x2) :
    equalizeVal V x1 ≤ equalizeVal V x2 := by
  have hw : 0 < (eqHi V - eqLo V) / 256 := by
    have := eqHi_sub_eqLo_pos V hne
    positivity
  have hbnd : ∀ p ∈ (binsCenter (eqLo V) ((eqHi V - eqLo V) / 256)).zip (cdfLookup V),
      0 ≤ p.2 ∧ p.2 ≤ 255 := by
    intro p hp
    obtain ⟨a, b⟩ := p
    exact cdfLookup_mem V b (List.of_mem_zip hp).2
  exact toU8_interp_mono _ x1 x2 hx.le
    (chain'_zip (· < ·) (· ≤ ·) _ _ (chain'_lt_binsCenter _ _ hw) (chain'_cdfLookup V)) hbnd

/-- Witness for claim C5 on the band 0, 1, 2 at the samples 0 and 1. -/
theorem C5_equalization_monotone_witness :
    (([0, 1, 2] : List ℚ) ≠ [] ∧ (0 : ℚ) ∈ ([0, 1, 2] : List ℚ)
      ∧ (1 : ℚ) ∈ ([0, 1, 2] : List ℚ) ∧ (0 : ℚ) < 1)
    ∧ equalizeVal [0, 1, 2] 0 ≤ equalizeVal [0, 1, 2] 1 :=
  ⟨⟨by simp, by simp, by simp, by norm_num⟩,
    C5_equalization_monotone [0, 1, 2] 0 1 (by simp) (by simp) (by simp) (by norm_num)⟩

end HistEnh
